import Mathlib

/-!
Shallow embedding of the duplicate-file detection and removal engine of
devcli-go (`cmd/file` dedupe command, function `runDedupe`, helper
`calculateFileHash`), together with proofs of the specified properties.

File contents are byte lists (`List Nat`, each byte < 256).  The SHA-256
digest used by `calculateFileHash` (Go `crypto/sha256` + `fmt.Sprintf "%x"`)
is embedded concretely below, following FIPS 180-4, so that identity keys
are computed exactly as the program computes them.
-/

namespace Devkit

/-- File contents: a list of bytes. -/
abbrev Bytes := List Nat

/-- Truncate to a 32-bit word. -/
def w32 (n : Nat) : Nat := n % 4294967296

/-- Right rotation of a 32-bit word. -/
def rotr32 (x n : Nat) : Nat := w32 ((x >>> n) ||| (x <<< (32 - n)))

/-- SHA-256 round constants (FIPS 180-4 §4.2.2), written in decimal. -/
def sha256K : List Nat :=
  [1116352408, 1899447441, 3049323471, 3921009573, 961987163, 1508970993,
   2453635748, 2870763221, 3624381080, 310598401, 607225278, 1426881987,
   1925078388, 2162078206, 2614888103, 3248222580, 3835390401, 4022224774,
   264347078, 604807628, 770255983, 1249150122, 1555081692, 1996064986,
   2554220882, 2821834349, 2952996808, 3210313671, 3336571891, 3584528711,
   113926993, 338241895, 666307205, 773529912, 1294757372, 1396182291,
   1695183700, 1986661051, 2177026350, 2456956037, 2730485921, 2820302411,
   3259730800, 3345764771, 3516065817, 3600352804, 4094571909, 275423344,
   430227734, 506948616, 659060556, 883997877, 958139571, 1322822218,
   1537002063, 1747873779, 1955562222, 2024104815, 2227730452, 2361852424,
   2428436474, 2756734187, 3204031479, 3329325298]

/-- SHA-256 initial hash values (FIPS 180-4 §5.3.3), written in decimal. -/
def sha256InitH : List Nat :=
  [1779033703, 3144134277, 1013904242, 2773480762,
   1359893119, 2600822924, 528734635, 1541459225]

/-- Message-schedule small sigma 0. -/
def ssig0 (x : Nat) : Nat := rotr32 x 7 ^^^ rotr32 x 18 ^^^ (x >>> 3)

/-- Message-schedule small sigma 1. -/
def ssig1 (x : Nat) : Nat := rotr32 x 17 ^^^ rotr32 x 19 ^^^ (x >>> 10)

/-- Compression big sigma 0. -/
def bsig0 (x : Nat) : Nat := rotr32 x 2 ^^^ rotr32 x 13 ^^^ rotr32 x 22

/-- Compression big sigma 1. -/
def bsig1 (x : Nat) : Nat := rotr32 x 6 ^^^ rotr32 x 11 ^^^ rotr32 x 25

/-- Next message-schedule word, from the schedule produced so far. -/
def nextW (ws : List Nat) : Nat :=
  let n := ws.length
  w32 (ws.getD (n - 16) 0 + ssig0 (ws.getD (n - 15) 0) + ws.getD (n - 7) 0 + ssig1 (ws.getD (n - 2) 0))

/-- Extend the message schedule by `k` further words. -/
def extendW : Nat → List Nat → List Nat
  | 0, ws => ws
  | k + 1, ws => extendW k (ws ++ [nextW ws])

/-- Pack bytes into big-endian 32-bit words. -/
def bytesToWords : List Nat → List Nat
  | b0 :: b1 :: b2 :: b3 :: rest =>
      ((b0 <<< 24) ||| (b1 <<< 16) ||| (b2 <<< 8) ||| b3) :: bytesToWords rest
  | _ => []

/-- The eight 32-bit working variables of the compression function. -/
structure ShaState where
  a : Nat
  b : Nat
  c : Nat
  d : Nat
  e : Nat
  f : Nat
  g : Nat
  h : Nat

/-- Load the working variables from the current hash value. -/
def stateOfH (hv : List Nat) : ShaState :=
  ⟨hv.getD 0 0, hv.getD 1 0, hv.getD 2 0, hv.getD 3 0,
   hv.getD 4 0, hv.getD 5 0, hv.getD 6 0, hv.getD 7 0⟩

/-- Store the working variables back as a list. -/
def hOfState (st : ShaState) : List Nat :=
  [st.a, st.b, st.c, st.d, st.e, st.f, st.g, st.h]

/-- One compression round with schedule word `w` and constant `k`. -/
def shaRound (st : ShaState) (wk : Nat × Nat) : ShaState :=
  let s1 := bsig1 st.e
  let ch := (st.e &&& st.f) ^^^ ((st.e ^^^ 0xffffffff) &&& st.g)
  let temp1 := st.h + s1 + ch + wk.2 + wk.1
  let s0 := bsig0 st.a
  let maj := (st.a &&& st.b) ^^^ (st.a &&& st.c) ^^^ (st.b &&& st.c)
  let temp2 := s0 + maj
  ⟨w32 (temp1 + temp2), st.a, st.b, st.c, w32 (st.d + temp1), st.e, st.f, st.g⟩

/-- Process one 64-byte block, updating the running hash value. -/
def processBlock (hv : List Nat) (block : List Nat) : List Nat :=
  let ws := extendW 48 (bytesToWords block)
  let st := (ws.zip sha256K).foldl shaRound (stateOfH hv)
  (hv.zip (hOfState st)).map (fun xy => w32 (xy.1 + xy.2))

/-- SHA-256 padding: append 0x80, zeros to 56 mod 64, then the 64-bit
big-endian bit length. -/
def padMsg (msg : Bytes) : Bytes :=
  let len := msg.length
  let zeros := (120 - ((len + 1) % 64)) % 64
  let bitLen := len * 8
  msg ++ [0x80] ++ List.replicate zeros 0 ++
    [(bitLen >>> 56) % 256, (bitLen >>> 48) % 256, (bitLen >>> 40) % 256, (bitLen >>> 32) % 256,
     (bitLen >>> 24) % 256, (bitLen >>> 16) % 256, (bitLen >>> 8) % 256, bitLen % 256]

/-- Split a byte list into 64-byte chunks (structural recursion on a fuel
bound, so the kernel can evaluate it; `fuel ≥ length` suffices since every
step consumes at least one element of a nonempty list). -/
def chunksAux : Nat → List Nat → List (List Nat)
  | 0, _ => []
  | _ + 1, [] => []
  | fuel + 1, l => l.take 64 :: chunksAux fuel (l.drop 64)

/-- Split a byte list into 64-byte chunks. -/
def chunks64 (l : List Nat) : List (List Nat) := chunksAux l.length l

/-- Big-endian bytes of a 32-bit word. -/
def wordBytes (w : Nat) : List Nat :=
  [(w >>> 24) % 256, (w >>> 16) % 256, (w >>> 8) % 256, w % 256]

/-- The SHA-256 digest of a message, as its 32 bytes. -/
def sha256 (msg : Bytes) : Bytes :=
  ((chunks64 (padMsg msg)).foldl processBlock sha256InitH).map wordBytes |>.flatten

/-- The sixteen lowercase hexadecimal digits. -/
def hexChars : List Char := "0123456789abcdef".data

/-- The lowercase hexadecimal digit for a nibble. -/
def hexDigit (n : Nat) : Char := hexChars.getD n '0'

/-- Go `fmt.Sprintf "%x"` on a byte slice: two lowercase hex digits per byte. -/
def bytesToHex (bs : Bytes) : String :=
  ⟨(bs.map (fun b => [hexDigit (b / 16), hexDigit (b % 16)])).flatten⟩

/-- The source's `calculateFileHash`: open the file, stream its content
through SHA-256 and render it with `%x`.  The content is `none` when the
file cannot be opened or read, in which case an error is returned. -/
def calculateFileHash (content : Option Bytes) : Except String String :=
  match content with
  | none => .error "open/read failed"
  | some bs => .ok (bytesToHex (sha256 bs))

/-- The configuration `runDedupe` reads from its command flags (the `by`
flag is spelled `byMethod` because `by` is reserved in Lean). -/
structure DedupeConfig where
  searchPath : String
  byMethod : String
  action : String
  dryRun : Bool
  recursive : Bool
  outputFormat : String

/-- One invocation of the `filepath.Walk` callback in `runDedupe`:
either the incoming `err` is non-nil (stat/read failure on the entry),
or the entry is a directory, or it is a regular file carrying its path,
its `info.Name()` base name, and its content (`none` when opening or
reading it for hashing would fail). -/
inductive WalkEvent where
  | errEntry
  | dirEntry (path : String)
  | fileEntry (path : String) (name : String) (content : Option Bytes)

/-- The (key, path) pair the walk callback inserts into `fileMap` for one
event, or `none` when the callback returns without inserting: on a non-nil
`err` it returns nil, on a directory it returns nil or `filepath.SkipDir`,
and under the hash method a failing `calculateFileHash` makes it return
nil, dropping the file. -/
def keyedOf (cfg : DedupeConfig) : WalkEvent → Option (String × String)
  | .errEntry => none
  | .dirEntry _ => none
  | .fileEntry path name content =>
      if cfg.byMethod == "hash" then
        match calculateFileHash content with
        | .error _ => none
        | .ok hash => some (hash, path)
      else
        some (name, path)

/-- The `fileMap`, as an association list in key-insertion order (the Go map
iterates in unspecified order; the claims below never depend on the
cross-group order, only on the per-key path order, which the map preserves
exactly as `append` does). -/
abbrev FileMap := List (String × List String)

/-- The insertion `fileMap[key] = append(fileMap[key], path)`. -/
def appendEntry : FileMap → String → String → FileMap
  | [], k, p => [(k, [p])]
  | (k', ps) :: rest, k, p =>
      if k' == k then (k', ps ++ [p]) :: rest else (k', ps) :: appendEntry rest k p

/-- The walk loop of `runDedupe`: fold every callback invocation into
`fileMap`. -/
def walkFold (cfg : DedupeConfig) (events : List WalkEvent) : FileMap :=
  events.foldl
    (fun fm ev =>
      match keyedOf cfg ev with
      | none => fm
      | some kp => appendEntry fm kp.1 kp.2)
    []

/-- One entry of the `duplicates` slice built by `runDedupe`. -/
structure DuplicateGroup where
  key : String
  keep : String
  duplicates : List String
  count : Nat
deriving DecidableEq

/-- The duplicate record `runDedupe` builds for one `fileMap` entry with
more than one path: keep the first, the rest are the duplicates. -/
def groupOf (kv : String × List String) : DuplicateGroup :=
  ⟨kv.1, kv.2.headD "", kv.2.tail, kv.2.tail.length⟩

/-- The loop over `fileMap` in `runDedupe` building `duplicates` and
`toDelete`: entries with more than one path become groups, and when the
action is delete their non-kept paths are appended to `toDelete`. -/
def buildDuplicates (action : String) (fm : FileMap) : List DuplicateGroup × List String :=
  fm.foldl
    (fun acc kv =>
      if 1 < kv.2.length then
        (acc.1 ++ [groupOf kv],
         if action == "delete" then acc.2 ++ kv.2.tail else acc.2)
      else acc)
    ([], [])

/-- A JSON-like value, for the `map[string]interface\x7b\x7d` payloads the
command hands to `output.PrintSuccess`. -/
inductive JValue where
  | str (s : String)
  | num (n : Nat)
  | bool (b : Bool)
  | arr (elems : List JValue)
  | obj (fields : List (String × JValue))

/-- The per-group JSON object built at the `duplicate :=` literal in
`runDedupe`. -/
def duplicateJson (g : DuplicateGroup) : JValue :=
  .obj [("key", .str g.key), ("keep", .str g.keep),
        ("duplicates", .arr (g.duplicates.map .str)), ("count", .num g.count)]

/-- The top-level JSON object `runDedupe` passes to `output.PrintSuccess`
when the output format is JSON. -/
def dedupeJson (cfg : DedupeConfig) (duplicates : List DuplicateGroup)
    (toDelete : List String) : JValue :=
  .obj [("path", .str cfg.searchPath), ("method", .str cfg.byMethod),
        ("duplicates", .arr (duplicates.map duplicateJson)),
        ("count", .num duplicates.length), ("to_delete", .num toDelete.length),
        ("dry_run", .bool cfg.dryRun)]

/-- One removal attempt: the file, whether `os.Remove` succeeded, and its
error when it failed. -/
structure RemovalOutcome where
  path : String
  removed : Bool
  error : Option String
deriving DecidableEq

/-- An `os.Remove` oracle for the event-level runs: `none` is success,
`some msg` failure.  (The file-system-level runs below instead thread a
concrete file system through each removal.) -/
abbrev RemoveFn := String → Option String

/-- One iteration of the deletion loop body under `!dryRun`. -/
def attemptRemove (rm : RemoveFn) (file : String) : RemovalOutcome :=
  match rm file with
  | none => ⟨file, true, none⟩
  | some e => ⟨file, false, some e⟩

/-- The `if action == \x22delete\x22 && len(toDelete) > 0` block of the
plain-text branch: under dry-run it only prints, otherwise it calls
`os.Remove` on every file of `toDelete` in order, recording each success
or failure independently and never stopping. -/
def deleteLoop (cfg : DedupeConfig) (rm : RemoveFn) (toDelete : List String) :
    List RemovalOutcome :=
  if cfg.action == "delete" then
    if toDelete.isEmpty then []
    else if cfg.dryRun then []
    else toDelete.map (attemptRemove rm)
  else []

/-- Everything one `runDedupe` invocation produces: the JSON payload when
the format is JSON, the duplicate groups, the planned deletions, and the
removal attempts actually performed. -/
structure DedupeResult where
  jsonReport : Option JValue
  duplicates : List DuplicateGroup
  toDelete : List String
  outcomes : List RemovalOutcome

/-- The run of `runDedupe` over a walk trace.  The `filepath.Walk` callback in the
source returns only nil or `filepath.SkipDir`, and `filepath.Walk` itself
only ever surfaces an error that the callback returned (the root stat
error is also routed through the callback), so the walk's returned error
is always nil and the `dedupe error:` wrapper is unreachable; `walkErr`
records that value. -/
def runDedupe (cfg : DedupeConfig) (rm : RemoveFn) (events : List WalkEvent) :
    Except String DedupeResult :=
  let walkErr : Option String := none
  match walkErr with
  | some e => .error ("dedupe error: " ++ e)
  | none =>
    let fm := walkFold cfg events
    let dt := buildDuplicates cfg.action fm
    if cfg.outputFormat == "json" then
      .ok ⟨some (dedupeJson cfg dt.1 dt.2), dt.1, dt.2, []⟩
    else
      .ok ⟨none, dt.1, dt.2, deleteLoop cfg rm dt.2⟩

/-- A directory tree, flattened: the regular files under the root in the
deterministic order `filepath.Walk` visits them (depth-first, lexicographic
per directory), each with its content.  Paths use `/` separators. -/
abbrev FileSystem := List (String × Bytes)

/-- The `info.Name()` of a walked regular file: the base name of its path,
the part after the last `/` separator (walked regular-file paths never
end in a separator). -/
def baseName (p : String) : String :=
  ⟨p.data.foldl (fun acc c => if c = '/' then [] else acc ++ [c]) []⟩

/-- Modelled from the spec: the behavior of `filepath.Walk` (Go standard
library, not part of this repository) as §4.1 describes it — for an
existing root it visits the root directory and then every reachable
regular file in a deterministic depth-first lexicographic order, here the
order of the `FileSystem` list, each file readable with its listed
content; for a missing or unreadable root it invokes the callback exactly
once with a non-nil error before aborting the enumeration. -/
def walkEvents (root : String) : Option FileSystem → List WalkEvent
  | none => [.errEntry]
  | some fs => .dirEntry root :: fs.map (fun e => .fileEntry e.1 (baseName e.1) (some e.2))

/-- The effect of `os.Remove` against the modelled file system: deleting an existing
path removes exactly that entry; deleting a missing path fails and leaves
the file system unchanged. -/
def osRemove (fs : FileSystem) (path : String) : FileSystem × Option String :=
  if fs.any (fun e => e.1 == path)
  then (fs.filter (fun e => e.1 != path), none)
  else (fs, some "no such file or directory")

/-- The `for _, file := range toDelete` loop under `!dryRun`, threading
the file system through each `os.Remove` call; every iteration records
its own outcome and the loop never stops early. -/
def removeFiles : FileSystem → List String → FileSystem × List RemovalOutcome
  | fs, [] => (fs, [])
  | fs, file :: rest =>
      let r := osRemove fs file
      let out : RemovalOutcome :=
        match r.2 with
        | none => ⟨file, true, none⟩
        | some e => ⟨file, false, some e⟩
      let tailRun := removeFiles r.1 rest
      (tailRun.1, out :: tailRun.2)

/-- The deletion block of the plain-text branch, at the file-system level. -/
def deleteLoopFS (cfg : DedupeConfig) (fs : FileSystem) (toDelete : List String) :
    FileSystem × List RemovalOutcome :=
  if cfg.action == "delete" then
    if toDelete.isEmpty then (fs, [])
    else if cfg.dryRun then (fs, [])
    else removeFiles fs toDelete
  else (fs, [])

/-- The run of `runDedupe` over a modelled directory tree (`none` = the root path does
not exist or cannot be statted): walk it, group, and — only in the
plain-text branch, with action delete and not a dry run — mutate the file
system.  Returns the result together with the file system left behind. -/
def runDedupeFS (cfg : DedupeConfig) (root : Option FileSystem) :
    Except String (DedupeResult × FileSystem) :=
  let events := walkEvents cfg.searchPath root
  let fsIn := root.getD []
  let walkErr : Option String := none
  match walkErr with
  | some e => .error ("dedupe error: " ++ e)
  | none =>
    let fm := walkFold cfg events
    let dt := buildDuplicates cfg.action fm
    if cfg.outputFormat == "json" then
      .ok (⟨some (dedupeJson cfg dt.1 dt.2), dt.1, dt.2, []⟩, fsIn)
    else
      let run := deleteLoopFS cfg fsIn dt.2
      .ok (⟨none, dt.1, dt.2, run.2⟩, run.1)

/-- The identity key `runDedupe` computes for a readable file of the
modelled file system: SHA-256 hex of the content under the hash method,
`info.Name()` otherwise. -/
def fileKey (cfg : DedupeConfig) (e : String × Bytes) : String :=
  if cfg.byMethod == "hash" then bytesToHex (sha256 e.2) else baseName e.1

/-! Specification-side notions used to state and prove the properties. -/

/-- Lookup in a `FileMap`: the path list of the first entry carrying the
key (empty when the key is absent). -/
def valOf : FileMap → String → List String
  | [], _ => []
  | kv :: rest, k => if kv.1 == k then kv.2 else valOf rest k

/-- The keys of a `FileMap`, in order. -/
def keysOf (fm : FileMap) : List String := fm.map (·.1)

/-- The walk loop restricted to its inserted (key, path) pairs. -/
def buildMap (prs : List (String × String)) : FileMap :=
  prs.foldl (fun fm kp => appendEntry fm kp.1 kp.2) []

/-- The (key, path) pairs a walk trace inserts, in walk order. -/
def keyedPairs (cfg : DedupeConfig) (events : List WalkEvent) : List (String × String) :=
  events.filterMap (keyedOf cfg)

/-- The paths sharing an identity key among some inserted pairs, in
insertion order. -/
abbrev pairClass (prs : List (String × String)) (k : String) : List String :=
  (prs.filter (fun kp => kp.1 == k)).map (·.2)

/-- The paths sharing an identity key, in walk-discovery order. -/
def classPaths (cfg : DedupeConfig) (events : List WalkEvent) (k : String) : List String :=
  pairClass (keyedPairs cfg events) k

/-- The `fileMap` entries with more than one path — the ones that become
duplicate groups. -/
def dupEntries (fm : FileMap) : FileMap :=
  fm.filter (fun kv => decide (1 < kv.2.length))

/-- The removals an apply run plans for some inserted pairs: the non-kept
tail of every duplicate group, in group order then member order. -/
def planned (prs : List (String × String)) : List String :=
  ((dupEntries (buildMap prs)).map (fun kv => kv.2.tail)).flatten

/-- The duplicate groups an invocation produces from a walk trace. -/
def dupGroupsOf (cfg : DedupeConfig) (events : List WalkEvent) : List DuplicateGroup :=
  (dupEntries (walkFold cfg events)).map groupOf

/-- The deletions an invocation plans from a walk trace. -/
def toDeleteOf (cfg : DedupeConfig) (events : List WalkEvent) : List String :=
  if cfg.action = "delete"
  then ((dupEntries (walkFold cfg events)).map (fun kv => kv.2.tail)).flatten
  else []

/-- The field names of a JSON object (empty for non-objects). -/
def objKeys : JValue → List String
  | .obj fields => fields.map (·.1)
  | _ => []

/-- The top-level field names of the structured report an invocation hands
to the Reporter, when there is one. -/
def runJsonKeys (cfg : DedupeConfig) (rm : RemoveFn) (events : List WalkEvent) :
    Option (List String) :=
  match runDedupe cfg rm events with
  | .ok res => res.jsonReport.map objKeys
  | .error _ => none

/-! Concrete fixtures used by the witness and counterexample theorems. -/

/-- An `os.Remove` oracle that always succeeds. -/
def rmOk : RemoveFn := fun _ => none

/-- An `os.Remove` oracle that fails with a permission error on
`b/x.txt` and succeeds elsewhere. -/
def rmFailB : RemoveFn :=
  fun p => if p == "b/x.txt" then some "permission denied" else none

/-- Apply mode over JSON output: three files named `x.txt`. -/
def cfgJsonDelete : DedupeConfig := ⟨".", "name", "delete", false, true, "json"⟩

/-- Apply mode over plain output, name method. -/
def cfgPlainDelete : DedupeConfig := ⟨".", "name", "delete", false, true, "plain"⟩

/-- Apply mode over plain output, hash method. -/
def cfgHashDelete : DedupeConfig := ⟨".", "hash", "delete", false, true, "plain"⟩

/-- Preview (dry-run) apply mode over plain output. -/
def cfgPlainPreview : DedupeConfig := ⟨".", "name", "delete", true, true, "plain"⟩

/-- An unrecognized comparison method. -/
def cfgSizeDelete : DedupeConfig := ⟨".", "size", "delete", false, true, "plain"⟩

/-- A walk trace with three files sharing the name `x.txt`. -/
def eventsThree : List WalkEvent :=
  [.fileEntry "a/x.txt" "x.txt" (some [1]),
   .fileEntry "b/x.txt" "x.txt" (some [2]),
   .fileEntry "c/x.txt" "x.txt" (some [3])]

/-- The result of running apply mode, plain output, over `eventsThree`
with the `rmFailB` oracle: the removal of `b/x.txt` fails, and the batch
still continues to `c/x.txt`. -/
def resThree : DedupeResult :=
  ⟨none,
   [⟨"x.txt", "a/x.txt", ["b/x.txt", "c/x.txt"], 2⟩],
   ["b/x.txt", "c/x.txt"],
   [⟨"b/x.txt", false, some "permission denied"⟩, ⟨"c/x.txt", true, none⟩]⟩

/-- The same run as `resThree` but with every removal succeeding. -/
def resThreeOk : DedupeResult :=
  ⟨none,
   [⟨"x.txt", "a/x.txt", ["b/x.txt", "c/x.txt"], 2⟩],
   ["b/x.txt", "c/x.txt"],
   [⟨"b/x.txt", true, none⟩, ⟨"c/x.txt", true, none⟩]⟩

/-- The JSON-format run over `eventsThree`: same plan, no removal
attempted, and the structured payload handed to the Reporter. -/
def resThreeJson : DedupeResult :=
  ⟨some (dedupeJson cfgJsonDelete
          [⟨"x.txt", "a/x.txt", ["b/x.txt", "c/x.txt"], 2⟩]
          ["b/x.txt", "c/x.txt"]),
   [⟨"x.txt", "a/x.txt", ["b/x.txt", "c/x.txt"], 2⟩],
   ["b/x.txt", "c/x.txt"], []⟩

/-- A two-file directory tree whose entries share the base name
`img.jpg` with different contents. -/
def fsImg : FileSystem := [("d1/img.jpg", [1]), ("d2/img.jpg", [2])]

/-- What remains of `fsImg` after its one duplicate is removed. -/
def fsImgAfter : FileSystem := [("d1/img.jpg", [1])]

/-- The preview (dry-run) result over `fsImg`: a plan, no outcomes. -/
def resImgPreview : DedupeResult :=
  ⟨none, [⟨"img.jpg", "d1/img.jpg", ["d2/img.jpg"], 1⟩], ["d2/img.jpg"], []⟩

/-- The apply result over `fsImg`: the duplicate is removed. -/
def resImgApply : DedupeResult :=
  ⟨none, [⟨"img.jpg", "d1/img.jpg", ["d2/img.jpg"], 1⟩], ["d2/img.jpg"],
   [⟨"d2/img.jpg", true, none⟩]⟩

/-- The second apply run over `fsImgAfter`: nothing left to do. -/
def resImgSecond : DedupeResult := ⟨none, [], [], []⟩

/-- Entries the walk callback skips: one stat failure, one file that
cannot be opened for hashing. -/
def badEvents : List WalkEvent := [.errEntry, .fileEntry "d/u.bin" "u.bin" none]

/-- Walk prefix around the skipped entries. -/
def preEvents : List WalkEvent := [.fileEntry "a/x.txt" "x.txt" (some [1])]

/-- Walk suffix around the skipped entries. -/
def postEvents : List WalkEvent := [.fileEntry "b/x.txt" "x.txt" (some [2])]

/-- The configuration with the comparison method replaced by `name`. -/
def nameConfig (cfg : DedupeConfig) : DedupeConfig :=
  ⟨cfg.searchPath, "name", cfg.action, cfg.dryRun, cfg.recursive, cfg.outputFormat⟩

/-- The spec §8 hash scenario: `a.txt` and `b.txt` both hold "X" (0x58),
`c.txt` holds "Y" (0x59). -/
def fsXY : FileSystem := [("d/a.txt", [88]), ("d/b.txt", [88]), ("d/c.txt", [89])]

/-! Sanity checks of the digest embedding against the FIPS 180-4 test
vectors. -/

/-- SHA-256 of the empty message matches the published vector. -/
theorem sha256_empty_vector :
    bytesToHex (sha256 []) =
      "e3b0c44298fc1c149afbf4c8996fb92427ae41e4649b934ca495991b7852b855" := by
  rfl

/-- SHA-256 of "abc" (bytes 0x61 0x62 0x63) matches the published vector. -/
theorem sha256_abc_vector :
    bytesToHex (sha256 [0x61, 0x62, 0x63]) =
      "ba7816bf8f01cfea414140de5dae2223b00361a396177a9cb410ff61f20015ad" := by
  rfl

/-! The `fileMap` association list: how `append` and the walk fold relate
to lookup, keys, and the inserted pairs. -/

/-- Appending a path under key `k` extends exactly the `k` lookup. -/
theorem valOf_appendEntry (fm : FileMap) (k p k' : String) :
    valOf (appendEntry fm k p) k' =
      if k = k' then valOf fm k' ++ [p] else valOf fm k' := by
  induction fm with
  | nil =>
      by_cases h : k = k' <;> simp [appendEntry, valOf, h]
  | cons kv rest ih =>
      by_cases h1 : kv.1 = k
      · by_cases h2 : k = k' <;>
          simp [appendEntry, valOf, h1, h2]
      · by_cases h3 : kv.1 = k'
        · have h2 : ¬ k = k' := fun hc => h1 (hc ▸ h3)
          have h2' : ¬ k' = k := fun hc => h2 hc.symm
          simp [appendEntry, valOf, h1, h3, h2, h2']
        · simp [appendEntry, valOf, h1, h3, ih]

/-- Appending never removes keys and adds at most the inserted one. -/
theorem keysOf_appendEntry (fm : FileMap) (k p : String) :
    keysOf (appendEntry fm k p) =
      if k ∈ keysOf fm then keysOf fm else keysOf fm ++ [k] := by
  induction fm with
  | nil => simp [appendEntry, keysOf]
  | cons kv rest ih =>
      by_cases h1 : kv.1 = k
      · simp [appendEntry, keysOf, h1]
      · have h2 : ¬ k = kv.1 := fun hc => h1 hc.symm
        simp only [appendEntry, keysOf, List.map_cons, List.mem_cons] at ih ⊢
        by_cases h3 : k ∈ List.map (fun x => x.1) rest <;>
          simp [h1, h2, h3, ih]

/-- Appending preserves distinctness of the keys. -/
theorem nodup_keysOf_appendEntry (fm : FileMap) (k p : String)
    (h : (keysOf fm).Nodup) : (keysOf (appendEntry fm k p)).Nodup := by
  rw [keysOf_appendEntry]
  by_cases hk : k ∈ keysOf fm
  · simp [hk, h]
  · simp [hk, h, List.nodup_append]

/-- The walk fold, from any starting map: every key's lookup grows by the
paths inserted under it, in insertion order. -/
theorem valOf_foldl (prs : List (String × String)) (fm : FileMap) (k : String) :
    valOf (prs.foldl (fun fm kp => appendEntry fm kp.1 kp.2) fm) k =
      valOf fm k ++ (prs.filter (fun kp => kp.1 == k)).map (·.2) := by
  induction prs generalizing fm with
  | nil => simp
  | cons kp rest ih =>
      by_cases h : kp.1 = k <;>
        simp [List.foldl_cons, ih, valOf_appendEntry, h]

/-- Lookup in the built map is exactly the filtered-and-projected pair
list. -/
theorem valOf_buildMap (prs : List (String × String)) (k : String) :
    valOf (buildMap prs) k = (prs.filter (fun kp => kp.1 == k)).map (·.2) := by
  simpa [buildMap, valOf] using valOf_foldl prs [] k

/-- The built map has distinct keys. -/
theorem nodup_keysOf_buildMap (prs : List (String × String)) :
    (keysOf (buildMap prs)).Nodup := by
  suffices h : ∀ fm : FileMap, (keysOf fm).Nodup →
      (keysOf (prs.foldl (fun fm kp => appendEntry fm kp.1 kp.2) fm)).Nodup by
    exact h [] (by simp [keysOf])
  induction prs with
  | nil => intro fm hfm; simpa using hfm
  | cons kp rest ih =>
      intro fm hfm
      exact ih _ (nodup_keysOf_appendEntry fm kp.1 kp.2 hfm)

/-- In a map with distinct keys, membership determines the lookup. -/
theorem valOf_eq_of_mem (fm : FileMap) (kv : String × List String)
    (hmem : kv ∈ fm) (hnd : (keysOf fm).Nodup) : valOf fm kv.1 = kv.2 := by
  induction fm with
  | nil => cases hmem
  | cons hd rest ih =>
      rcases List.mem_cons.mp hmem with h | h
      · simp [valOf, h]
      · have hkmem : kv.1 ∈ keysOf rest := List.mem_map.mpr ⟨kv, h, rfl⟩
        have hnd' := hnd
        rw [show keysOf (hd :: rest) = hd.1 :: keysOf rest from rfl,
          List.nodup_cons] at hnd'
        have hne : ¬ hd.1 = kv.1 := fun hc => hnd'.1 (hc ▸ hkmem)
        simp [valOf, hne, ih h hnd'.2]

/-- A nonempty lookup means the key's entry is in the map. -/
theorem mem_of_valOf_ne (fm : FileMap) (k : String) (h : valOf fm k ≠ []) :
    (k, valOf fm k) ∈ fm := by
  induction fm with
  | nil => simp [valOf] at h
  | cons hd rest ih =>
      obtain ⟨k1, ps1⟩ := hd
      by_cases hk : k1 = k
      · subst hk
        simp [valOf] at h ⊢
      · simp [valOf, hk] at h ⊢
        right
        exact ih h

/-- The walk fold over a trace is the built map of its inserted pairs. -/
theorem walkFold_eq_buildMap (cfg : DedupeConfig) (events : List WalkEvent) :
    walkFold cfg events = buildMap (keyedPairs cfg events) := by
  suffices h : ∀ fm : FileMap,
      events.foldl
        (fun fm ev =>
          match keyedOf cfg ev with
          | none => fm
          | some kp => appendEntry fm kp.1 kp.2) fm =
      (events.filterMap (keyedOf cfg)).foldl
        (fun fm kp => appendEntry fm kp.1 kp.2) fm by
    simpa [walkFold, buildMap, keyedPairs] using h []
  induction events with
  | nil => intro fm; simp
  | cons ev rest ih =>
      intro fm
      cases h : keyedOf cfg ev <;> simp [List.filterMap_cons, h, ih]

/-! The group-building loop and the planned deletions. -/

/-- The group-building fold, from arbitrary accumulators. -/
theorem buildDuplicates_foldl (action : String) (fm : FileMap)
    (d : List DuplicateGroup) (t : List String) :
    fm.foldl
      (fun acc kv =>
        if 1 < kv.2.length then
          (acc.1 ++ [groupOf kv],
           if action == "delete" then acc.2 ++ kv.2.tail else acc.2)
        else acc) (d, t) =
      (d ++ (dupEntries fm).map groupOf,
       t ++ (if action = "delete"
         then ((dupEntries fm).map (fun kv => kv.2.tail)).flatten
         else [])) := by
  induction fm generalizing d t with
  | nil => simp [dupEntries]
  | cons kv rest ih =>
      by_cases h : 1 < kv.2.length <;>
        by_cases ha : action = "delete" <;>
          simp [dupEntries, List.filter_cons, h, ha, ih] at ih ⊢ <;>
          simp [ih]

/-- The `duplicates` and `toDelete` as built by `runDedupe` from `fileMap`. -/
theorem buildDuplicates_eq (action : String) (fm : FileMap) :
    buildDuplicates action fm =
      ((dupEntries fm).map groupOf,
       if action = "delete"
       then ((dupEntries fm).map (fun kv => kv.2.tail)).flatten
       else []) := by
  simpa [buildDuplicates] using buildDuplicates_foldl action fm [] []

/-- Membership in a flattened list of group tails. -/
theorem mem_flatten_tails (fm : FileMap) (x : String) :
    x ∈ ((dupEntries fm).map (fun kv => kv.2.tail)).flatten ↔
      ∃ kv, kv ∈ dupEntries fm ∧ x ∈ kv.2.tail := by
  simp only [List.mem_flatten, List.mem_map]
  constructor
  · rintro ⟨l, ⟨kv, hkv, rfl⟩, hx⟩
    exact ⟨kv, hkv, hx⟩
  · rintro ⟨kv, hkv, hx⟩
    exact ⟨kv.2.tail, ⟨kv, hkv, rfl⟩, hx⟩

/-- Membership in `dupEntries`, unfolded. -/
theorem mem_dupEntries (fm : FileMap) (kv : String × List String) :
    kv ∈ dupEntries fm ↔ kv ∈ fm ∧ 1 < kv.2.length := by
  simp [dupEntries, List.mem_filter]

/-- Lookup in the built map gives the identity-key class. -/
theorem valOf_buildMap_class (prs : List (String × String)) (k : String) :
    valOf (buildMap prs) k = pairClass prs k :=
  valOf_buildMap prs k

/-- Every entry of the built map is its own key's class. -/
theorem mem_buildMap_val (prs : List (String × String)) (kv : String × List String)
    (h : kv ∈ buildMap prs) : kv.2 = pairClass prs kv.1 := by
  have := valOf_eq_of_mem (buildMap prs) kv h (nodup_keysOf_buildMap prs)
  rw [valOf_buildMap_class] at this
  exact this.symm

/-- A nonempty class has its entry in the built map. -/
theorem pairClass_mem_buildMap (prs : List (String × String)) (k : String)
    (h : pairClass prs k ≠ []) : (k, pairClass prs k) ∈ buildMap prs := by
  have hmem := mem_of_valOf_ne (buildMap prs) k
    (by rw [valOf_buildMap_class]; exact h)
  rwa [valOf_buildMap_class] at hmem

/-- Every non-kept class member is planned for deletion. -/
theorem tail_mem_planned (prs : List (String × String)) (k x : String)
    (hx : x ∈ (pairClass prs k).tail) : x ∈ planned prs := by
  cases hc : pairClass prs k with
  | nil => simp [hc] at hx
  | cons y ys =>
      cases ys with
      | nil => simp [hc] at hx
      | cons z zs =>
          have hne : pairClass prs k ≠ [] := by simp [hc]
          have hmem := pairClass_mem_buildMap prs k hne
          have hdup : (k, pairClass prs k) ∈ dupEntries (buildMap prs) := by
            rw [mem_dupEntries]
            exact ⟨hmem, by simp [hc]⟩
          refine (mem_flatten_tails _ x).mpr ⟨(k, pairClass prs k), hdup, ?_⟩
          simpa [hc] using hx

/-- Classes are lists of distinct paths when the walked paths are
distinct. -/
theorem nodup_pairClass (prs : List (String × String)) (k : String)
    (hnd : (prs.map (·.2)).Nodup) : (pairClass prs k).Nodup := by
  have hsub : (prs.filter (fun kp => kp.1 == k)).Sublist prs := List.filter_sublist prs
  exact hnd.sublist (hsub.map (·.2))

/-- Tail and map commute. -/
theorem map_tail_comm {α β : Type} (f : α → β) (l : List α) :
    (l.map f).tail = l.tail.map f := by
  cases l <;> simp

/-- A kept (first-in-class) path is never planned for deletion, provided
the walked paths are distinct. -/
theorem head_not_mem_planned (prs : List (String × String)) (k x : String)
    (xs : List String) (hnd : (prs.map (·.2)).Nodup)
    (hc : pairClass prs k = x :: xs) : x ∉ planned prs := by
  intro hx
  obtain ⟨kv, hkv, hxtail⟩ := (mem_flatten_tails _ x).mp hx
  obtain ⟨hkvm, hkvlen⟩ := (mem_dupEntries _ kv).mp hkv
  have hval : kv.2 = pairClass prs kv.1 := mem_buildMap_val prs kv hkvm
  rw [hval] at hxtail
  -- the pair behind `x` in the class of `kv.1`
  have htl : (pairClass prs kv.1).tail =
      ((prs.filter (fun kp => kp.1 == kv.1)).tail).map (·.2) :=
    map_tail_comm (·.2) (prs.filter (fun kp => kp.1 == kv.1))
  rw [htl] at hxtail
  obtain ⟨y, hy, hyx⟩ := List.mem_map.mp hxtail
  have hyfil : y ∈ prs.filter (fun kp => kp.1 == kv.1) := List.mem_of_mem_tail hy
  have hyprs : y ∈ prs := List.mem_of_mem_filter hyfil
  have hyk : y.1 = kv.1 := by
    have := List.of_mem_filter hyfil
    simpa using this
  -- the pair behind `x` at the head of the class of `k`
  have hc' : (prs.filter (fun kp => kp.1 == k)).map (·.2) = x :: xs := hc
  have hhead : ∃ z, z ∈ prs.filter (fun kp => kp.1 == k) ∧ z.2 = x := by
    cases hfil : prs.filter (fun kp => kp.1 == k) with
    | nil => rw [hfil] at hc'; simp at hc'
    | cons z zs =>
        refine ⟨z, by simp [hfil], ?_⟩
        rw [hfil] at hc'
        simpa using congrArg (fun l => l.headD "") hc'
  obtain ⟨z, hzfil, hzx⟩ := hhead
  have hzprs : z ∈ prs := List.mem_of_mem_filter hzfil
  have hzk : z.1 = k := by
    have := List.of_mem_filter hzfil
    simpa using this
  -- distinct paths force the two pairs to coincide, so the keys agree
  have hyz : y = z :=
    List.inj_on_of_nodup_map hnd hyprs hzprs (hyx.trans hzx.symm)
  have hkk : kv.1 = k := by rw [← hyk, hyz, hzk]
  -- so `x` heads a class whose tail it also inhabits: impossible
  rw [hkk] at hxtail
  have htlk : (pairClass prs k).tail =
      ((prs.filter (fun kp => kp.1 == k)).tail).map (·.2) :=
    map_tail_comm (·.2) (prs.filter (fun kp => kp.1 == k))
  rw [← htlk, hc] at hxtail
  have hcnd : (pairClass prs k).Nodup := nodup_pairClass prs k hnd
  rw [hc] at hcnd
  exact (List.nodup_cons.mp hcnd).1 (by simpa using hxtail)

/-! The removal loop at the file-system level. -/

/-- One `os.Remove` leaves exactly the other paths, whether or not the
target existed. -/
theorem osRemove_fst (fs : FileSystem) (p : String) :
    (osRemove fs p).1 = fs.filter (fun e => e.1 != p) := by
  by_cases h : fs.any (fun e => e.1 == p)
  · simp [osRemove, h]
  · have h' : ∀ e ∈ fs, ¬(e.1 = p) := by
      intro e he hep
      exact h (List.any_eq_true.mpr ⟨e, he, by simp [hep]⟩)
    simp only [osRemove, h, if_false, Bool.false_eq_true]
    symm
    rw [List.filter_eq_self]
    intro e he
    simpa using h' e he

/-- Filtering one path away and then the rest is filtering them all. -/
theorem filter_ne_then_notmem (fs : FileSystem) (p : String) (rest : List String) :
    (fs.filter (fun e => e.1 != p)).filter (fun e => decide (e.1 ∉ rest)) =
      fs.filter (fun e => decide (e.1 ∉ p :: rest)) := by
  rw [List.filter_filter]
  apply List.filter_congr
  intro e _
  by_cases h1 : e.1 = p <;> by_cases h2 : e.1 ∈ rest <;> simp [h1, h2]

/-- The removal loop ends with exactly the unplanned files, regardless of
which removals succeeded. -/
theorem removeFiles_fst (td : List String) (fs : FileSystem) :
    (removeFiles fs td).1 = fs.filter (fun e => decide (e.1 ∉ td)) := by
  induction td generalizing fs with
  | nil => simp [removeFiles]
  | cons p rest ih =>
      have hstep : (removeFiles fs (p :: rest)).1 = (removeFiles (osRemove fs p).1 rest).1 := by
        simp [removeFiles]
      rw [hstep, ih, osRemove_fst, filter_ne_then_notmem]

/-- The removal loop records one outcome per planned file, in order,
regardless of which removals succeeded. -/
theorem removeFiles_paths (td : List String) (fs : FileSystem) :
    ((removeFiles fs td).2).map (·.path) = td := by
  induction td generalizing fs with
  | nil => simp [removeFiles]
  | cons p rest ih =>
      cases h : (osRemove fs p).2 <;> simp [removeFiles, h, ih]

/-! Characterizations of the two run functions. -/

/-- What `runDedupe` always returns: never an error, groups from the
entries of `fileMap` with over one path, planned deletions only under the
delete action, and removal attempts only in the plain-text branch. -/
theorem runDedupe_spec (cfg : DedupeConfig) (rm : RemoveFn) (events : List WalkEvent) :
    runDedupe cfg rm events =
      .ok ⟨(if cfg.outputFormat = "json"
              then some (dedupeJson cfg (dupGroupsOf cfg events) (toDeleteOf cfg events))
              else none),
           dupGroupsOf cfg events,
           toDeleteOf cfg events,
           (if cfg.outputFormat = "json" then []
            else deleteLoop cfg rm (toDeleteOf cfg events))⟩ := by
  by_cases hj : cfg.outputFormat = "json" <;>
    simp [runDedupe, hj, buildDuplicates_eq, dupGroupsOf, toDeleteOf]

/-- What `runDedupeFS` always returns. -/
theorem runDedupeFS_spec (cfg : DedupeConfig) (root : Option FileSystem) :
    runDedupeFS cfg root =
      (if cfg.outputFormat = "json" then
        .ok (⟨some (dedupeJson cfg (dupGroupsOf cfg (walkEvents cfg.searchPath root))
                     (toDeleteOf cfg (walkEvents cfg.searchPath root))),
              dupGroupsOf cfg (walkEvents cfg.searchPath root),
              toDeleteOf cfg (walkEvents cfg.searchPath root), []⟩, root.getD [])
      else
        .ok (⟨none, dupGroupsOf cfg (walkEvents cfg.searchPath root),
              toDeleteOf cfg (walkEvents cfg.searchPath root),
              (deleteLoopFS cfg (root.getD [])
                (toDeleteOf cfg (walkEvents cfg.searchPath root))).2⟩,
             (deleteLoopFS cfg (root.getD [])
               (toDeleteOf cfg (walkEvents cfg.searchPath root))).1)) := by
  by_cases hj : cfg.outputFormat = "json" <;>
    simp [runDedupeFS, hj, buildDuplicates_eq, dupGroupsOf, toDeleteOf]

/-- In apply mode the deletion block really runs the removal loop. -/
theorem deleteLoopFS_apply (cfg : DedupeConfig) (fs : FileSystem) (td : List String)
    (hA : cfg.action = "delete") (hD : cfg.dryRun = false) :
    deleteLoopFS cfg fs td = if td.isEmpty then (fs, []) else removeFiles fs td := by
  simp [deleteLoopFS, hA, hD]

/-- In apply mode the surviving files are exactly the unplanned ones. -/
theorem deleteLoopFS_apply_fst (cfg : DedupeConfig) (fs : FileSystem) (td : List String)
    (hA : cfg.action = "delete") (hD : cfg.dryRun = false) :
    (deleteLoopFS cfg fs td).1 = fs.filter (fun e => decide (e.1 ∉ td)) := by
  rw [deleteLoopFS_apply cfg fs td hA hD]
  by_cases h : td.isEmpty
  · have hnil : td = [] := by simpa using h
    simp [h, hnil]
  · simp [h, removeFiles_fst]

/-- The pairs inserted for a walked file system. -/
theorem keyedPairs_walkEvents (cfg : DedupeConfig) (root : String) (fs : FileSystem) :
    keyedPairs cfg (walkEvents root (some fs)) =
      fs.map (fun e => (fileKey cfg e, e.1)) := by
  have hdir : keyedOf cfg (WalkEvent.dirEntry root) = none := rfl
  simp only [keyedPairs, walkEvents, List.filterMap_cons, hdir]
  induction fs with
  | nil => simp
  | cons e rest ih =>
      by_cases hB : cfg.byMethod = "hash" <;>
        simp [keyedOf, calculateFileHash, fileKey, hB, List.filterMap_cons, ih]

/-! The idempotence argument: after removing every planned path, each
identity-key class has at most one member left. -/

/-- Path-filtering the pairs path-filters every class. -/
theorem pairClass_filter (prs : List (String × String)) (td : List String) (k : String) :
    pairClass (prs.filter (fun kp => decide (kp.2 ∉ td))) k =
      (pairClass prs k).filter (fun x => decide (x ∉ td)) := by
  show ((prs.filter (fun kp => decide (kp.2 ∉ td))).filter (fun kp => kp.1 == k)).map (·.2) =
    ((prs.filter (fun kp => kp.1 == k)).map (·.2)).filter (fun x => decide (x ∉ td))
  rw [List.filter_map, List.filter_filter, List.filter_filter]
  apply congrArg
  apply List.filter_congr
  intro kp _
  simp [Function.comp, Bool.and_comm]

/-- Once the planned paths are removed, no class keeps two members. -/
theorem pairClass_after_removal_le_one (prs : List (String × String)) (k : String)
    (hnd : (prs.map (·.2)).Nodup) :
    ((pairClass prs k).filter (fun x => decide (x ∉ planned prs))).length ≤ 1 := by
  cases hc : pairClass prs k with
  | nil => simp
  | cons x xs =>
      cases xs with
      | nil =>
          have := List.length_filter_le (fun x => decide (x ∉ planned prs)) [x]
          simpa using this
      | cons y ys =>
          have hxnot : x ∉ planned prs := head_not_mem_planned prs k x (y :: ys) hnd hc
          have htail : (y :: ys).filter (fun x => decide (x ∉ planned prs)) = [] := by
            rw [List.filter_eq_nil_iff]
            intro z hz
            have hzp : z ∈ planned prs := by
              apply tail_mem_planned prs k
              rw [hc]
              simpa using hz
            simp [hzp]
          have hstep : (x :: y :: ys).filter (fun x => decide (x ∉ planned prs)) =
              x :: ((y :: ys).filter (fun x => decide (x ∉ planned prs))) := by
            rw [List.filter_cons]
            simp [hxnot]
          rw [hstep, htail]
          simp

/-- Over a walked file system the planned deletions are `planned` of the
per-file pairs. -/
theorem toDeleteOf_eq_planned (cfg : DedupeConfig) (root : String) (fs : FileSystem)
    (hA : cfg.action = "delete") :
    toDeleteOf cfg (walkEvents root (some fs)) =
      planned (fs.map (fun e => (fileKey cfg e, e.1))) := by
  simp [toDeleteOf, hA, planned, walkFold_eq_buildMap, keyedPairs_walkEvents]

/-- Over a walked file system the groups come from the built map of the
per-file pairs. -/
theorem dupGroupsOf_eq (cfg : DedupeConfig) (root : String) (fs : FileSystem) :
    dupGroupsOf cfg (walkEvents root (some fs)) =
      (dupEntries (buildMap (fs.map (fun e => (fileKey cfg e, e.1))))).map groupOf := by
  simp [dupGroupsOf, walkFold_eq_buildMap, keyedPairs_walkEvents]

/-- No planned deletions means no duplicate groups at all. -/
theorem dupEntries_eq_nil_of_planned_nil (prs : List (String × String))
    (h : planned prs = []) : dupEntries (buildMap prs) = [] := by
  rw [List.eq_nil_iff_forall_not_mem]
  intro kv hkv
  obtain ⟨hm, hlen⟩ := (mem_dupEntries _ kv).mp hkv
  have htl : kv.2.tail ≠ [] := by
    cases hkv2 : kv.2 with
    | nil => simp [hkv2] at hlen
    | cons a l =>
        cases l with
        | nil => simp [hkv2] at hlen
        | cons b l2 => simp [hkv2]
  obtain ⟨x, hx⟩ := List.exists_mem_of_ne_nil _ htl
  have hxp : x ∈ planned prs := (mem_flatten_tails _ x).mpr ⟨kv, hkv, hx⟩
  rw [h] at hxp
  exact List.not_mem_nil x hxp

/-- C8: Applying removal is idempotent at the directory-tree level — when
an apply run (action delete, dry-run false) over a tree with distinct
paths completes with every planned deletion performed and successful, a
second apply run over the resulting tree produces an empty group list and
zero removal outcomes, leaving the tree untouched. -/
theorem dedupe_apply_idempotent (cfg : DedupeConfig) (fs fs1 fs2 : FileSystem)
    (res1 res2 : DedupeResult)
    (hA : cfg.action = "delete") (hD : cfg.dryRun = false)
    (hnd : (fs.map (·.1)).Nodup)
    (h1 : runDedupeFS cfg (some fs) = .ok (res1, fs1))
    (hC : res1.outcomes.map (·.path) = res1.toDelete)
    (hS : ∀ o ∈ res1.outcomes, o.removed = true)
    (h2 : runDedupeFS cfg (some fs1) = .ok (res2, fs2)) :
    res2.duplicates = [] ∧ res2.toDelete = [] ∧ res2.outcomes = [] ∧ fs2 = fs1 := by
  have hspec1 := runDedupeFS_spec cfg (some fs)
  rw [h1] at hspec1
  have hspec2 := runDedupeFS_spec cfg (some fs1)
  rw [h2] at hspec2
  have hndp : ((fs.map (fun e => (fileKey cfg e, e.1))).map (·.2)).Nodup := by
    rw [List.map_map]
    exact hnd
  -- the first run leaves exactly the unplanned paths
  have hfs1 : fs1 = fs.filter
      (fun e => decide (e.1 ∉ planned (fs.map (fun e => (fileKey cfg e, e.1))))) := by
    by_cases hj : cfg.outputFormat = "json"
    · rw [if_pos hj] at hspec1
      simp only [Except.ok.injEq, Prod.mk.injEq, Option.getD_some] at hspec1
      obtain ⟨hres1, hfs1'⟩ := hspec1
      rw [hres1] at hC
      simp only [List.map_nil] at hC
      have hplan0 : planned (fs.map (fun e => (fileKey cfg e, e.1))) = [] := by
        rw [← toDeleteOf_eq_planned cfg cfg.searchPath fs hA]
        exact hC.symm
      rw [hplan0]
      simp [hfs1']
    · rw [if_neg hj] at hspec1
      simp only [Except.ok.injEq, Prod.mk.injEq, Option.getD_some] at hspec1
      obtain ⟨hres1, hfs1'⟩ := hspec1
      rw [hfs1', deleteLoopFS_apply_fst cfg _ _ hA hD,
        ← toDeleteOf_eq_planned cfg cfg.searchPath fs hA]
  -- the surviving pairs are the path-filtered pairs
  have hpairs2 : fs1.map (fun e => (fileKey cfg e, e.1)) =
      (fs.map (fun e => (fileKey cfg e, e.1))).filter
        (fun kp => decide (kp.2 ∉ planned (fs.map (fun e => (fileKey cfg e, e.1))))) := by
    rw [hfs1, List.filter_map]
    rfl
  -- so no class keeps two members and nothing is left to group
  have hd2 : dupEntries (buildMap (fs1.map (fun e => (fileKey cfg e, e.1)))) = [] := by
    rw [List.eq_nil_iff_forall_not_mem]
    intro kv hkv
    obtain ⟨hm, hlen⟩ := (mem_dupEntries _ kv).mp hkv
    have hval := mem_buildMap_val _ kv hm
    have hle : (pairClass (fs1.map (fun e => (fileKey cfg e, e.1))) kv.1).length ≤ 1 := by
      rw [hpairs2, pairClass_filter]
      exact pairClass_after_removal_le_one _ kv.1 hndp
    rw [← hval] at hle
    omega
  have hD2 : dupGroupsOf cfg (walkEvents cfg.searchPath (some fs1)) = [] := by
    rw [dupGroupsOf_eq, hd2]
    rfl
  have hT2 : toDeleteOf cfg (walkEvents cfg.searchPath (some fs1)) = [] := by
    rw [toDeleteOf_eq_planned cfg cfg.searchPath fs1 hA]
    simp [planned, hd2]
  -- finish along the branch the second run takes
  by_cases hj : cfg.outputFormat = "json"
  · rw [if_pos hj] at hspec2
    simp only [Except.ok.injEq, Prod.mk.injEq, Option.getD_some] at hspec2
    obtain ⟨hres2, hfs2⟩ := hspec2
    rw [hres2]
    simp [hD2, hT2, hfs2]
  · rw [if_neg hj] at hspec2
    simp only [Except.ok.injEq, Prod.mk.injEq, Option.getD_some] at hspec2
    obtain ⟨hres2, hfs2⟩ := hspec2
    rw [hres2, hfs2]
    simp [hD2, hT2, deleteLoopFS]

/-! The remaining claims. -/

/-- The deletion loop in apply mode is the removal attempt on every
planned file. -/
theorem deleteLoop_apply (cfg : DedupeConfig) (rm : RemoveFn) (td : List String)
    (hA : cfg.action = "delete") (hD : cfg.dryRun = false) :
    deleteLoop cfg rm td = td.map (attemptRemove rm) := by
  by_cases h : td.isEmpty
  · have hnil : td = [] := by simpa using h
    simp [deleteLoop, hnil]
  · simp [deleteLoop, hA, hD, h]

/-- C1 (amended): In apply mode with a non-JSON output format, a deletion
is attempted for every removable member of every duplicate group, in
group order then member order; each attempt's outcome is determined by
its own member alone — a failure is recorded for that member and
processing continues to the next — so one failure never aborts the
batch. -/
theorem apply_plain_attempts_every_member (cfg : DedupeConfig) (rm : RemoveFn)
    (events : List WalkEvent) (res : DedupeResult)
    (hF : cfg.outputFormat ≠ "json") (hA : cfg.action = "delete")
    (hD : cfg.dryRun = false)
    (h : runDedupe cfg rm events = .ok res) :
    res.outcomes = res.toDelete.map (attemptRemove rm) ∧
    res.outcomes.map (·.path) = res.toDelete ∧
    res.toDelete = (res.duplicates.map (·.duplicates)).flatten ∧
    ∀ o ∈ res.outcomes,
      (rm o.path = none → o.removed = true ∧ o.error = none) ∧
      (∀ msg, rm o.path = some msg → o.removed = false ∧ o.error = some msg) := by
  rw [runDedupe_spec] at h
  simp only [Except.ok.injEq, if_neg hF] at h
  subst h
  refine ⟨deleteLoop_apply cfg rm _ hA hD, ?_, ?_, ?_⟩
  · rw [deleteLoop_apply cfg rm _ hA hD, List.map_map]
    have : ∀ f : String, ((fun o : RemovalOutcome => o.path) ∘ attemptRemove rm) f = f := by
      intro f
      cases hrm : rm f <;> simp [attemptRemove, hrm, Function.comp]
    rw [List.map_congr_left (fun f _ => this f)]
    simp
  · simp only [toDeleteOf, dupGroupsOf, if_pos hA, List.map_map]
    rfl
  · rw [deleteLoop_apply cfg rm _ hA hD]
    intro o ho
    obtain ⟨f, hf, rfl⟩ := List.mem_map.mp ho
    cases hrm : rm f <;>
      constructor <;>
        simp [attemptRemove, hrm]

/-- Witness for C1 (amended): over three files sharing a name, the
removal of `b/x.txt` fails with a permission error while `c/x.txt` is
still attempted and removed. -/
theorem apply_plain_attempts_every_member_witness :
    cfgPlainDelete.outputFormat ≠ "json" ∧ cfgPlainDelete.action = "delete" ∧
    cfgPlainDelete.dryRun = false ∧
    (resThree.outcomes = resThree.toDelete.map (attemptRemove rmFailB) ∧
     resThree.outcomes.map (·.path) = resThree.toDelete ∧
     resThree.toDelete = (resThree.duplicates.map (·.duplicates)).flatten ∧
     ∀ o ∈ resThree.outcomes,
       (rmFailB o.path = none → o.removed = true ∧ o.error = none) ∧
       (∀ msg, rmFailB o.path = some msg → o.removed = false ∧ o.error = some msg)) :=
  ⟨by decide, rfl, rfl,
   apply_plain_attempts_every_member cfgPlainDelete rmFailB eventsThree resThree
     (by decide) rfl rfl (by rfl)⟩

/-- Counterexample to C1 as stated: with the JSON output format selected,
apply mode (action delete, dry-run false) plans two removable members but
attempts no deletion at all — the deletion loop lives only in the
plain-text branch. -/
theorem apply_json_attempts_nothing :
    (runDedupe cfgJsonDelete rmOk eventsThree).toOption.map
        (fun r => (r.toDelete, r.outcomes)) =
      some (["b/x.txt", "c/x.txt"], []) ∧
    (["b/x.txt", "c/x.txt"] : List String) ≠ [] := by
  constructor
  · rfl
  · decide

/-- C2: a missing or unreadable root path does not fail the run — the
`filepath.Walk` callback swallows the incoming error (returning nil), so
`runDedupe` returns success with zero groups, zero planned deletions and
zero removal attempts, and the CLI exits 0.  The `dedupe error:` wrapper
in the source is unreachable.  (The spec instead requires a fatal error
here, so this theorem documents the divergence.) -/
theorem missing_root_returns_ok (cfg : DedupeConfig) :
    runDedupeFS cfg none =
      .ok (⟨(if cfg.outputFormat = "json" then some (dedupeJson cfg [] []) else none),
            [], [], []⟩, []) := by
  have hfm : walkFold cfg (walkEvents cfg.searchPath none) = [] := rfl
  by_cases hj : cfg.outputFormat = "json" <;>
    by_cases ha : cfg.action = "delete" <;>
      simp [runDedupeFS_spec, dupGroupsOf, toDeleteOf, hfm, hj, ha, dupEntries,
        deleteLoopFS]

/-- C3 (amended): the structured report delivered to the Reporter has
exactly the top-level fields `path`, `method`, `duplicates`, `count`,
`to_delete` and `dry_run` (note `path`, not `root_path`), its
`duplicates` field holds one object per group, and every group object
has exactly the fields `key`, `keep`, `duplicates` and `count`. -/
theorem json_report_fields (cfg : DedupeConfig) (rm : RemoveFn)
    (events : List WalkEvent) (res : DedupeResult) (j : JValue)
    (hj : cfg.outputFormat = "json")
    (h : runDedupe cfg rm events = .ok res)
    (hr : res.jsonReport = some j) :
    j = dedupeJson cfg res.duplicates res.toDelete ∧
    objKeys j = ["path", "method", "duplicates", "count", "to_delete", "dry_run"] ∧
    ∀ g : DuplicateGroup,
      objKeys (duplicateJson g) = ["key", "keep", "duplicates", "count"] := by
  rw [runDedupe_spec] at h
  simp only [Except.ok.injEq, if_pos hj] at h
  subst h
  simp only [Option.some.injEq] at hr
  subst hr
  exact ⟨rfl, rfl, fun g => rfl⟩

/-- Witness for C3 (amended): the JSON run over three same-named files
delivers its payload with exactly those fields. -/
theorem json_report_fields_witness :
    cfgJsonDelete.outputFormat = "json" ∧
    (dedupeJson cfgJsonDelete resThreeJson.duplicates resThreeJson.toDelete =
        dedupeJson cfgJsonDelete resThreeJson.duplicates resThreeJson.toDelete ∧
     objKeys (dedupeJson cfgJsonDelete resThreeJson.duplicates resThreeJson.toDelete) =
        ["path", "method", "duplicates", "count", "to_delete", "dry_run"] ∧
     ∀ g : DuplicateGroup,
       objKeys (duplicateJson g) = ["key", "keep", "duplicates", "count"]) :=
  ⟨rfl,
   json_report_fields cfgJsonDelete rmOk eventsThree resThreeJson
     (dedupeJson cfgJsonDelete resThreeJson.duplicates resThreeJson.toDelete)
     rfl (by rfl) rfl⟩

/-- Counterexample to C3 as stated: the payload the Reporter receives has
a `path` field and no `root_path` field. -/
theorem json_report_has_no_root_path :
    runJsonKeys cfgJsonDelete rmOk eventsThree =
      some ["path", "method", "duplicates", "count", "to_delete", "dry_run"] ∧
    "root_path" ∉ ["path", "method", "duplicates", "count", "to_delete", "dry_run"] := by
  constructor
  · rfl
  · decide

/-- C4: every duplicate group's members, `keep` first, are exactly the
walk-order class of its key: the kept member is the one discovered
earliest, the `duplicates` entries are the remaining members in
walk-discovery order, and (in apply mode, for a walk with distinct
paths) the kept member is never planned for deletion while every
`duplicates` entry is. -/
theorem group_keeps_first_in_walk_order (cfg : DedupeConfig) (rm : RemoveFn)
    (events : List WalkEvent) (res : DedupeResult) (g : DuplicateGroup)
    (hnd : ((keyedPairs cfg events).map (·.2)).Nodup)
    (h : runDedupe cfg rm events = .ok res)
    (hg : g ∈ res.duplicates) :
    g.keep :: g.duplicates = classPaths cfg events g.key ∧
    g.count = g.duplicates.length ∧
    (cfg.action = "delete" →
      (∀ d ∈ g.duplicates, d ∈ res.toDelete) ∧ g.keep ∉ res.toDelete) := by
  rw [runDedupe_spec] at h
  simp only [Except.ok.injEq] at h
  subst h
  simp only [dupGroupsOf, walkFold_eq_buildMap] at hg
  obtain ⟨kv, hkv, rfl⟩ := List.mem_map.mp hg
  obtain ⟨hm, hlen⟩ := (mem_dupEntries _ kv).mp hkv
  have hval : kv.2 = pairClass (keyedPairs cfg events) kv.1 :=
    mem_buildMap_val _ kv hm
  cases hkv2 : kv.2 with
  | nil => rw [hkv2] at hlen; simp at hlen
  | cons x xs =>
      have hcls : pairClass (keyedPairs cfg events) kv.1 = x :: xs := by
        rw [← hval, hkv2]
      refine ⟨?_, ?_, ?_⟩
      · show (groupOf kv).keep :: (groupOf kv).duplicates = _
        simp only [groupOf, hkv2]
        simpa [classPaths] using hcls.symm
      · simp [groupOf]
      · intro hA
        have hTo : toDeleteOf cfg events = planned (keyedPairs cfg events) := by
          simp [toDeleteOf, hA, planned, walkFold_eq_buildMap]
        constructor
        · intro d hd
          show d ∈ toDeleteOf cfg events
          rw [hTo]
          apply tail_mem_planned (keyedPairs cfg events) kv.1
          rw [hcls]
          simpa [groupOf, hkv2] using hd
        · show (groupOf kv).keep ∉ toDeleteOf cfg events
          rw [hTo]
          have := head_not_mem_planned (keyedPairs cfg events) kv.1 x xs hnd hcls
          simpa [groupOf, hkv2] using this

/-- Witness for C4: in the three-file run, the group's kept member is
`a/x.txt`, the first discovered, and the two later discoveries are the
planned deletions. -/
theorem group_keeps_first_in_walk_order_witness :
    ((keyedPairs cfgPlainDelete eventsThree).map (·.2)).Nodup ∧
    ((⟨"x.txt", "a/x.txt", ["b/x.txt", "c/x.txt"], 2⟩ : DuplicateGroup) ∈
        resThree.duplicates) ∧
    ("a/x.txt" :: ["b/x.txt", "c/x.txt"] =
        classPaths cfgPlainDelete eventsThree "x.txt" ∧
     (2 : Nat) = (["b/x.txt", "c/x.txt"] : List String).length ∧
     (cfgPlainDelete.action = "delete" →
       (∀ d ∈ (["b/x.txt", "c/x.txt"] : List String), d ∈ resThree.toDelete) ∧
       "a/x.txt" ∉ resThree.toDelete)) :=
  ⟨by decide, by decide,
   group_keeps_first_in_walk_order cfgPlainDelete rmFailB eventsThree resThree
     ⟨"x.txt", "a/x.txt", ["b/x.txt", "c/x.txt"], 2⟩
     (by decide) (by rfl) (by decide)⟩

/-- C5: with dry-run true nothing on the file system changes — the tree
after the run is the tree before it — and no removal outcome is
produced, whatever the action, method and output format. -/
theorem preview_never_mutates (cfg : DedupeConfig) (root : Option FileSystem)
    (res : DedupeResult) (fsOut : FileSystem)
    (hD : cfg.dryRun = true)
    (h : runDedupeFS cfg root = .ok (res, fsOut)) :
    fsOut = root.getD [] ∧ res.outcomes = [] := by
  have hloop : ∀ fs td, deleteLoopFS cfg fs td = (fs, []) := by
    intro fs td
    simp [deleteLoopFS, hD]
  rw [runDedupeFS_spec] at h
  by_cases hj : cfg.outputFormat = "json"
  · rw [if_pos hj] at h
    simp only [Except.ok.injEq, Prod.mk.injEq] at h
    obtain ⟨hres, hfs⟩ := h
    rw [← hres]
    exact ⟨hfs.symm, rfl⟩
  · rw [if_neg hj] at h
    simp only [Except.ok.injEq, Prod.mk.injEq, hloop] at h
    obtain ⟨hres, hfs⟩ := h
    rw [← hres]
    exact ⟨hfs.symm, rfl⟩

/-- Witness for C5: the dry-run apply over the two same-named images
plans one removal, performs none, and leaves the tree as it was. -/
theorem preview_never_mutates_witness :
    cfgPlainPreview.dryRun = true ∧
    (fsImg = (some fsImg).getD [] ∧ resImgPreview.outcomes = []) :=
  ⟨rfl,
   preview_never_mutates cfgPlainPreview (some fsImg) resImgPreview fsImg
     rfl (by rfl)⟩

/-! Shape of the digest and of its hexadecimal rendering, for C6. -/

/-- Block compression preserves the eight-word hash length. -/
theorem processBlock_length (hv block : List Nat) (h : hv.length = 8) :
    (processBlock hv block).length = 8 := by
  simp [processBlock, hOfState, List.length_zip, h]

/-- Any sequence of blocks preserves the eight-word hash length. -/
theorem foldl_processBlock_length (blocks : List (List Nat)) (hv : List Nat)
    (h : hv.length = 8) : (blocks.foldl processBlock hv).length = 8 := by
  induction blocks generalizing hv with
  | nil => simpa using h
  | cons b bs ih => simpa using ih _ (processBlock_length hv b h)

/-- Emitting four bytes per word. -/
theorem flatten_wordBytes_length (l : List Nat) :
    ((l.map wordBytes).flatten).length = 4 * l.length := by
  induction l with
  | nil => simp
  | cons w ws ih =>
      simp [wordBytes, ih]
      omega

/-- The digest is 256 bits: 32 bytes. -/
theorem sha256_length (msg : Bytes) : (sha256 msg).length = 32 := by
  show ((((chunks64 (padMsg msg)).foldl processBlock sha256InitH).map
      wordBytes).flatten).length = 32
  rw [flatten_wordBytes_length, foldl_processBlock_length _ _ (by rfl)]

/-- Every rendered digit is one of the sixteen lowercase hex digits. -/
theorem hexDigit_mem (n : Nat) : hexDigit n ∈ hexChars := by
  by_cases h : n < hexChars.length
  · rw [hexDigit, List.getD_eq_getElem hexChars '0' h]
    exact List.getElem_mem h
  · rw [hexDigit, List.getD_eq_default hexChars '0' (le_of_not_lt h)]
    decide

/-- Hex rendering emits two characters per byte. -/
theorem bytesToHex_length (bs : Bytes) : (bytesToHex bs).length = 2 * bs.length := by
  show ((bs.map (fun b => [hexDigit (b / 16), hexDigit (b % 16)])).flatten).length =
    2 * bs.length
  induction bs with
  | nil => simp
  | cons b rest ih =>
      simp [ih]
      omega

/-- Hex rendering emits only lowercase hex digits. -/
theorem bytesToHex_chars (bs : Bytes) :
    ∀ ch ∈ (bytesToHex bs).data, ch ∈ hexChars := by
  intro ch hch
  have hm : ch ∈ (bs.map (fun b => [hexDigit (b / 16), hexDigit (b % 16)])).flatten := hch
  obtain ⟨l, hl, hchl⟩ := List.mem_flatten.mp hm
  obtain ⟨b, hb, rfl⟩ := List.mem_map.mp hl
  simp only [List.mem_cons, List.not_mem_nil, or_false] at hchl
  rcases hchl with rfl | rfl <;> exact hexDigit_mem _

/-- C6: under the hash method the identity key of every readable file is
the lowercase hexadecimal rendering — 64 characters over 0-9a-f — of the
256-bit (32-byte) SHA-256 digest of the file's entire content; under the
name method the key is the file's base name (`info.Name()`), directory
stripped and extension kept. -/
theorem identity_key_spec (cfgH cfgN : DedupeConfig) (p n : String)
    (bs : Bytes) (c : Option Bytes)
    (hH : cfgH.byMethod = "hash") (hN : cfgN.byMethod ≠ "hash") :
    keyedOf cfgH (.fileEntry p n (some bs)) = some (bytesToHex (sha256 bs), p) ∧
    (sha256 bs).length = 32 ∧
    (bytesToHex (sha256 bs)).length = 64 ∧
    (∀ ch ∈ (bytesToHex (sha256 bs)).data, ch ∈ hexChars) ∧
    keyedOf cfgN (.fileEntry p n c) = some (n, p) ∧
    fileKey cfgN (p, bs) = baseName p := by
  refine ⟨?_, sha256_length bs, ?_, bytesToHex_chars _, ?_, ?_⟩
  · simp [keyedOf, hH, calculateFileHash]
  · rw [bytesToHex_length, sha256_length]
  · simp [keyedOf, hN]
  · simp [fileKey, hN]

/-- Witness for C6, at the one-byte content 0x58 ("X"). -/
theorem identity_key_spec_witness :
    cfgHashDelete.byMethod = "hash" ∧ cfgPlainDelete.byMethod ≠ "hash" ∧
    (keyedOf cfgHashDelete (.fileEntry "d/a.txt" "a.txt" (some [88])) =
        some (bytesToHex (sha256 [88]), "d/a.txt") ∧
     (sha256 [88]).length = 32 ∧
     (bytesToHex (sha256 [88])).length = 64 ∧
     (∀ ch ∈ (bytesToHex (sha256 [88])).data, ch ∈ hexChars) ∧
     keyedOf cfgPlainDelete (.fileEntry "d/a.txt" "a.txt" (some [88])) =
        some ("a.txt", "d/a.txt") ∧
     fileKey cfgPlainDelete ("d/a.txt", [88]) = baseName "d/a.txt") :=
  ⟨rfl, by decide,
   identity_key_spec cfgHashDelete cfgPlainDelete "d/a.txt" "a.txt" [88]
     (some [88]) rfl (by decide)⟩

/-- Every produced duplicate group lists exactly its key's walk-order
class, keep first, and therefore carries at least two members. -/
theorem mem_dupGroups_class (cfg : DedupeConfig) (events : List WalkEvent)
    (g : DuplicateGroup) (hg : g ∈ dupGroupsOf cfg events) :
    g.keep :: g.duplicates = classPaths cfg events g.key ∧
    2 ≤ (g.keep :: g.duplicates).length := by
  simp only [dupGroupsOf, walkFold_eq_buildMap] at hg
  obtain ⟨kv, hkv, rfl⟩ := List.mem_map.mp hg
  obtain ⟨hm, hlen⟩ := (mem_dupEntries _ kv).mp hkv
  have hval := mem_buildMap_val _ kv hm
  cases hkv2 : kv.2 with
  | nil => rw [hkv2] at hlen; simp at hlen
  | cons x xs =>
      have hcls : pairClass (keyedPairs cfg events) kv.1 = x :: xs := by
        rw [← hval, hkv2]
      constructor
      · show (groupOf kv).keep :: (groupOf kv).duplicates = _
        simp only [groupOf, hkv2]
        simpa [classPaths] using hcls.symm
      · rw [hkv2] at hlen
        simp only [groupOf, hkv2]
        simp at hlen ⊢
        omega

/-- C7: after all candidates are consumed, keys with fewer than two paths
yield no group (a unique-keyed file appears in zero groups), every
produced group has at least two members, and no two produced groups
share a key. -/
theorem groups_exclude_singletons (cfg : DedupeConfig) (rm : RemoveFn)
    (events : List WalkEvent) (res : DedupeResult)
    (h : runDedupe cfg rm events = .ok res) :
    (res.duplicates.map (·.key)).Nodup ∧
    (∀ g ∈ res.duplicates,
        g.keep :: g.duplicates = classPaths cfg events g.key ∧
        2 ≤ (g.keep :: g.duplicates).length ∧
        2 ≤ (classPaths cfg events g.key).length) ∧
    (∀ k, (classPaths cfg events k).length < 2 →
        ∀ g ∈ res.duplicates, g.key ≠ k) := by
  rw [runDedupe_spec] at h
  simp only [Except.ok.injEq] at h
  subst h
  have hper : ∀ g ∈ dupGroupsOf cfg events,
      g.keep :: g.duplicates = classPaths cfg events g.key ∧
      2 ≤ (g.keep :: g.duplicates).length ∧
      2 ≤ (classPaths cfg events g.key).length := by
    intro g hg
    obtain ⟨hcls, hlen⟩ := mem_dupGroups_class cfg events g hg
    exact ⟨hcls, hlen, by rw [← hcls]; exact hlen⟩
  refine ⟨?_, hper, ?_⟩
  · show ((dupGroupsOf cfg events).map (·.key)).Nodup
    simp only [dupGroupsOf, walkFold_eq_buildMap, List.map_map]
    have hsub : (dupEntries (buildMap (keyedPairs cfg events))).Sublist
        (buildMap (keyedPairs cfg events)) := List.filter_sublist _
    exact (nodup_keysOf_buildMap (keyedPairs cfg events)).sublist (hsub.map (·.1))
  · intro k hk g hg hke
    obtain ⟨_, _, hcl⟩ := hper g hg
    rw [hke] at hcl
    omega

/-- Witness for C7: the three-file run has one group, keyed `x.txt`, with
three members; a key class of length one (for instance `y.txt`, absent)
yields no group. -/
theorem groups_exclude_singletons_witness :
    ((resThree.duplicates.map (·.key)).Nodup ∧
     (∀ g ∈ resThree.duplicates,
        g.keep :: g.duplicates = classPaths cfgPlainDelete eventsThree g.key ∧
        2 ≤ (g.keep :: g.duplicates).length ∧
        2 ≤ (classPaths cfgPlainDelete eventsThree g.key).length) ∧
     (∀ k, (classPaths cfgPlainDelete eventsThree k).length < 2 →
        ∀ g ∈ resThree.duplicates, g.key ≠ k)) :=
  groups_exclude_singletons cfgPlainDelete rmFailB eventsThree resThree (by rfl)

/-- Pointwise-equal selectors filter-map alike. -/
theorem filterMap_congr_mem {α β : Type} (f g : α → Option β) (l : List α)
    (h : ∀ a ∈ l, f a = g a) : l.filterMap f = l.filterMap g := by
  induction l with
  | nil => rfl
  | cons a rest ih =>
      rw [List.filterMap_cons, List.filterMap_cons, h a (by simp),
        ih (fun b hb => h b (by simp [hb]))]

/-- C9: entries whose callback sees a stat/read error, and files whose
hashing fails to open or read, are each dropped from the pass and nothing
else: the walk continues around them, the run's result is as if they were
absent, and the run still succeeds — the failure is never surfaced. -/
theorem skipped_entries_are_local (cfg : DedupeConfig) (rm : RemoveFn)
    (pre bads post : List WalkEvent)
    (hbad : ∀ b ∈ bads, keyedOf cfg b = none) :
    runDedupe cfg rm (pre ++ bads ++ post) = runDedupe cfg rm (pre ++ post) ∧
    ∃ res, runDedupe cfg rm (pre ++ bads ++ post) = .ok res := by
  have hnilb : bads.filterMap (keyedOf cfg) = [] := by
    rw [List.filterMap_eq_nil_iff]
    exact hbad
  have hkp : keyedPairs cfg (pre ++ bads ++ post) = keyedPairs cfg (pre ++ post) := by
    simp [keyedPairs, List.filterMap_append, hnilb]
  have hwf : walkFold cfg (pre ++ bads ++ post) = walkFold cfg (pre ++ post) := by
    rw [walkFold_eq_buildMap, walkFold_eq_buildMap, hkp]
  constructor
  · rw [runDedupe_spec, runDedupe_spec]
    simp only [dupGroupsOf, toDeleteOf, hwf]
  · exact ⟨_, runDedupe_spec cfg rm _⟩

/-- Witness for C9: a stat failure and an unreadable file inserted
between two hashable files change nothing, and the run stays
successful. -/
theorem skipped_entries_are_local_witness :
    (∀ b ∈ badEvents, keyedOf cfgHashDelete b = none) ∧
    (runDedupe cfgHashDelete rmOk (preEvents ++ badEvents ++ postEvents) =
        runDedupe cfgHashDelete rmOk (preEvents ++ postEvents) ∧
     ∃ res, runDedupe cfgHashDelete rmOk (preEvents ++ badEvents ++ postEvents) =
        .ok res) :=
  ⟨by decide,
   skipped_entries_are_local cfgHashDelete rmOk preEvents badEvents postEvents
     (by decide)⟩

/-- C10: any comparison method other than exactly `hash` — `size`
included — silently keys every file by its name, exactly as the name
method does, and is never rejected: the run still succeeds and produces
the name-method groups, plan and outcomes. -/
theorem non_hash_method_uses_name (cfg : DedupeConfig) (rm : RemoveFn)
    (events : List WalkEvent) (res : DedupeResult)
    (hB : cfg.byMethod ≠ "hash")
    (h : runDedupe cfg rm events = .ok res) :
    (∀ p n c, keyedOf cfg (.fileEntry p n c) = some (n, p)) ∧
    ∃ resN, runDedupe (nameConfig cfg) rm events = .ok resN ∧
      res.duplicates = resN.duplicates ∧ res.toDelete = resN.toDelete ∧
      res.outcomes = resN.outcomes := by
  have hkey : ∀ ev, keyedOf cfg ev = keyedOf (nameConfig cfg) ev := by
    intro ev
    cases ev with
    | errEntry => rfl
    | dirEntry q => rfl
    | fileEntry q nm c => simp [keyedOf, nameConfig, hB]
  have hkp : keyedPairs cfg events = keyedPairs (nameConfig cfg) events :=
    filterMap_congr_mem _ _ events (fun a _ => hkey a)
  have hwf : walkFold cfg events = walkFold (nameConfig cfg) events := by
    rw [walkFold_eq_buildMap, walkFold_eq_buildMap, hkp]
  have hT : toDeleteOf cfg events = toDeleteOf (nameConfig cfg) events := by
    simp only [toDeleteOf, hwf]
    rfl
  rw [runDedupe_spec] at h
  simp only [Except.ok.injEq] at h
  subst h
  refine ⟨fun p n c => by simp [keyedOf, hB], ?_⟩
  refine ⟨_, runDedupe_spec (nameConfig cfg) rm events, ?_, ?_, ?_⟩
  · show dupGroupsOf cfg events = dupGroupsOf (nameConfig cfg) events
    simp only [dupGroupsOf, hwf]
  · exact hT
  · show (if cfg.outputFormat = "json" then []
        else deleteLoop cfg rm (toDeleteOf cfg events)) = _
    rw [hT]
    rfl

/-- Witness for C10: the unrecognized method `size` produces exactly the
name-method run over the three same-named files. -/
theorem non_hash_method_uses_name_witness :
    cfgSizeDelete.byMethod ≠ "hash" ∧
    ((∀ p n c, keyedOf cfgSizeDelete (.fileEntry p n c) = some (n, p)) ∧
     ∃ resN, runDedupe (nameConfig cfgSizeDelete) rmOk eventsThree = .ok resN ∧
       resThreeOk.duplicates = resN.duplicates ∧
       resThreeOk.toDelete = resN.toDelete ∧
       resThreeOk.outcomes = resN.outcomes) :=
  ⟨by decide,
   non_hash_method_uses_name cfgSizeDelete rmOk eventsThree resThreeOk
     (by decide) (by rfl)⟩

/-- Witness for C8: applying over the two same-named images removes
`d2/img.jpg` successfully; re-applying over what is left finds nothing
to group, plans nothing, performs nothing and leaves the tree alone. -/
theorem dedupe_apply_idempotent_witness :
    cfgPlainDelete.action = "delete" ∧ cfgPlainDelete.dryRun = false ∧
    (fsImg.map (·.1)).Nodup ∧
    runDedupeFS cfgPlainDelete (some fsImg) = .ok (resImgApply, fsImgAfter) ∧
    resImgApply.outcomes.map (·.path) = resImgApply.toDelete ∧
    (∀ o ∈ resImgApply.outcomes, o.removed = true) ∧
    runDedupeFS cfgPlainDelete (some fsImgAfter) = .ok (resImgSecond, fsImgAfter) ∧
    (resImgSecond.duplicates = [] ∧ resImgSecond.toDelete = [] ∧
     resImgSecond.outcomes = [] ∧ fsImgAfter = fsImgAfter) :=
  ⟨rfl, rfl, by decide, by rfl, by decide, by decide, by rfl,
   dedupe_apply_idempotent cfgPlainDelete fsImg fsImgAfter fsImgAfter
     resImgApply resImgSecond rfl rfl (by decide) (by rfl) (by decide)
     (by decide) (by rfl)⟩

end Devkit
